import Mathlib

/-!
# Verification of the `memls.rs` in-memory WebDAV lock system

Shallow embedding of `src/memls.rs` (the in-memory hierarchical lock manager).
Paths are modelled as strings split on the slash character with empty segments
dropped, exactly as the source does at the top of every operation.  The path
trie (the `tree` module, whose code is not part of this repository snapshot) is
modelled from the spec as an inductive tree whose children form an association
list keyed by segment; child lookup finds the first matching key, mirroring a
map with unique keys.  Machine-generated lock tokens are modelled by passing
the fresh token as an explicit argument; the current time is likewise an
explicit argument.  Fallible operations return `Except`; a returned error
leaves the (purely functional) state unused, which models the source leaving
the shared state untouched on the error paths.
-/

set_option autoImplicit false
set_option maxRecDepth 2000

namespace MemLs

/-- A WebDAV lock descriptor, mirroring `DavLock` as used by `memls.rs`.
The `owner` XML element and the `Duration`/`SystemTime` values are opaque to
this module and are modelled as `Option String` / `Option Nat` / `Option Nat`. -/
structure DavLock where
  token : String
  path : String
  owner : Option String
  timeout : Option Nat
  timeout_at : Option Nat
  shared : Bool
  deep : Bool
deriving Repr, DecidableEq

/-- Modelled from the spec: the path trie of the `tree` module (spec section
4.1).  Each node holds its lock list and named children; the arena-with-ids
representation of the source is replaced by a first-match association list of
children, which is observationally the trie contract of the spec. -/
inductive Tree where
  | node (locks : List DavLock) (children : List (String × Tree))
deriving Repr

/-- The lock list stored at a node (spec 4.1 `locks(node)`). -/
def Tree.locks : Tree → List DavLock
  | .node l _ => l

/-- The named children of a node (spec 4.1 `children(node)`). -/
def Tree.children : Tree → List (String × Tree)
  | .node _ c => c

/-- The tree created by `MemLs::new` / `Tree::new`: a root with no locks. -/
def emptyTree : Tree := .node [] []

/-- Modelled from the spec: `child(node, segment)` of the trie contract;
first-match lookup in the association list of children. -/
def getChild : List (String × Tree) → String → Option Tree
  | [], _ => none
  | (cs, c) :: rest, s => if cs = s then some c else getChild rest s

/-- Replace the first child with the given key (or append a new entry when
the key is absent): the update half of the trie contract used by the
mutating walks. -/
def setChild : List (String × Tree) → String → Tree → List (String × Tree)
  | [], s, c2 => [(s, c2)]
  | (cs, c) :: rest, s, c2 =>
    if cs = s then (cs, c2) :: rest else (cs, c) :: setChild rest s c2

/-- Remove the first child with the given key (spec 4.1 `delete-node` as seen
from the parent). -/
def delChild : List (String × Tree) → String → List (String × Tree)
  | [], _ => []
  | (cs, c) :: rest, s => if cs = s then rest else (cs, c) :: delChild rest s

/-- Walk from a node down a list of segments (the repeated `get_child` walk
shared by several source functions). -/
def getNodeAt : Tree → List String → Option Tree
  | t, [] => some t
  | t, s :: rest =>
    match getChild t.children s with
    | none => none
    | some c => getNodeAt c rest

/-- `path.split(|&c| c == b'/').filter(|s| s.len() > 0)` — the segment split
performed at the start of every operation in `memls.rs`, expressed on the
character list of the path. -/
def splitSegs (path : String) : List String :=
  ((path.toList.splitOn (Char.ofNat 47)).filter (fun s => s ≠ [])).map
    (fun cs => String.mk cs)

/-- The inner `for nl in node_locks` loop of `check_locks_to_path`:
skip non-deep locks on non-final nodes, record token matches in `holds`,
fail on an unmatched exclusive lock, and remember the first unmatched shared
lock when `shared_ok` is false. -/
def scanNodeLocks : List DavLock → Bool → List String → Bool → Bool → Option DavLock →
    Except DavLock (Bool × Option DavLock)
  | [], _, _, _, holds, first => .ok (holds, first)
  | nl :: rest, isLast, subm, sharedOk, holds, first =>
    if !isLast && !nl.deep then
      scanNodeLocks rest isLast subm sharedOk holds first
    else if subm.contains nl.token then
      scanNodeLocks rest isLast subm sharedOk true first
    else if !nl.shared then
      .error nl
    else
      scanNodeLocks rest isLast subm sharedOk holds
        (if sharedOk then first else some (first.getD nl))

/-- The node walk of `check_locks_to_path`: the current node is visited (the
root is always present), then the walk descends along the remaining segments,
stopping quietly when a child is missing.  `segs.isEmpty` is exactly
`i == last_seg` of the source, since the source prepends the empty root
segment and we have already consumed the segments leading to `t`. -/
def checkLocksToPathAux : Tree → List String → List String → Bool → Bool → Option DavLock →
    Except DavLock (Bool × Option DavLock)
  | t, segs, subm, sharedOk, holds, first =>
    match scanNodeLocks t.locks segs.isEmpty subm sharedOk holds first with
    | .error l => .error l
    | .ok (h, f) =>
      match segs with
      | [] => .ok (h, f)
      | s :: rest =>
        match getChild t.children s with
        | none => .ok (h, f)
        | some c => checkLocksToPathAux c rest subm sharedOk h f

/-- `check_locks_to_path` (memls.rs lines 132-188). -/
def check_locks_to_path (t : Tree) (path : String) (subm : List String) (sharedOk : Bool) :
    Except DavLock Unit :=
  match checkLocksToPathAux t (splitSegs path) subm sharedOk false none with
  | .error l => .error l
  | .ok (h, f) =>
    if !h then
      match f with
      | some l => .error l
      | none => .ok ()
    else .ok ()

mutual
/-- `check_locks_from_node` (memls.rs lines 255-273): any lock at the node
with `!nl.shared || !shared_ok` is a conflict, then the children are scanned
depth-first. -/
def check_locks_from_node : Tree → Bool → Except DavLock Unit
  | .node locks children, sharedOk =>
    match locks.find? (fun nl => !nl.shared || !sharedOk) with
    | some nl => .error nl
    | none => checkLocksFromChildren children sharedOk

/-- The `for (_, node_id) in children` loop of `check_locks_from_node`. -/
def checkLocksFromChildren : List (String × Tree) → Bool → Except DavLock Unit
  | [], _ => .ok ()
  | (_, c) :: rest, sharedOk =>
    match check_locks_from_node c sharedOk with
    | .error l => .error l
    | .ok _ => checkLocksFromChildren rest sharedOk
end

/-- `check_locks_from_path` (memls.rs lines 246-252). -/
def check_locks_from_path (t : Tree) (path : String) (sharedOk : Bool) : Except DavLock Unit :=
  match getNodeAt t (splitSegs path) with
  | none => .ok ()
  | some n => check_locks_from_node n sharedOk

/-- `get_or_create_path_node` followed by `node.push(lock)` (memls.rs lines
57-72 and 191-205): walk the segments via `get_child`, creating a fresh empty
node (`add_child`) when a child is missing, and append the new lock at the
final node. -/
def addLockAt : Tree → List String → DavLock → Tree
  | .node locks children, [], l => .node (locks ++ [l]) children
  | .node locks children, s :: rest, l =>
    .node locks
      (setChild children s (addLockAt ((getChild children s).getD (.node [] [])) rest l))

/-- `lock` of the `DavLockSystem` impl (memls.rs lines 45-74).  A fresh
acquire submits no tokens (`Vec::new()`).  The freshly generated UUID token
and the current time are passed in as `token` and `now`. -/
def lock (t : Tree) (path : String) (owner : Option String) (timeout : Option Nat)
    (shared deep : Bool) (token : String) (now : Nat) : Except DavLock (Tree × DavLock) :=
  match check_locks_to_path t path [] shared with
  | .error l => .error l
  | .ok _ =>
    match (if deep then check_locks_from_path t path shared else .ok ()) with
    | .error l => .error l
    | .ok _ =>
      let timeout_at := timeout.map (fun d => now + d)
      let l : DavLock :=
        { token := token, path := path, owner := owner,
          timeout_at := timeout_at, timeout := timeout,
          shared := shared, deep := deep }
      .ok (addLockAt t (splitSegs path) l, l)

/-- First lock in a list carrying the given token
(`node.iter().position(|n| n.token == token)`). -/
def findToken : List DavLock → String → Option DavLock
  | [], _ => none
  | l :: rest, token => if l.token == token then some l else findToken rest token

/-- `lookup_lock` (memls.rs lines 208-227), returning the address (segment
prefix) of the node instead of its arena id.  Note the walk inspects only
child nodes obtained by consuming a segment: the root node itself is never
examined, and a path with no segments immediately returns `None`. -/
def lookupLockAux : Tree → List String → String → Option (List String)
  | _, [], _ => none
  | t, s :: rest, token =>
    match getChild t.children s with
    | none => none
    | some c =>
      if c.locks.any (fun l => l.token == token) then some [s]
      else (lookupLockAux c rest token).map (fun a => s :: a)

/-- `lookup_lock` on a path string. -/
def lookup_lock (t : Tree) (path : String) (token : String) : Option (List String) :=
  lookupLockAux t (splitSegs path) token

/-- Remove the first lock carrying the token
(`position` + `node.remove(idx)` in `unlock`). -/
def removeFirstToken : List DavLock → String → List DavLock
  | [], _ => []
  | l :: rest, token => if l.token == token then rest else l :: removeFirstToken rest token

/-- The mutation performed by `unlock` at the node found by `lookup_lock`:
remove the first lock with the token; if the lock list becomes empty, attempt
`delete_node`.  Modelled from the spec: `delete-node` removes an empty leaf
node and is erroneous when the node still has children; `unlock` ignores that
error (`.ok()`), so a lock-empty node with children is kept. -/
def unlockAt : Tree → List String → String → Tree
  | t, [], _ => t
  | .node locks children, s :: rest, token =>
    match getChild children s with
    | none => .node locks children
    | some c =>
      match rest with
      | [] =>
        let c2 : Tree := .node (removeFirstToken c.locks token) c.children
        if c2.locks.isEmpty && c2.children.isEmpty then .node locks (delChild children s)
        else .node locks (setChild children s c2)
      | _ => .node locks (setChild children s (unlockAt c rest token))

/-- `unlock` (memls.rs lines 76-92).  On `Err` the source leaves the state
untouched; here the error case simply returns no tree. -/
def unlock (t : Tree) (path : String) (token : String) : Except Unit Tree :=
  match lookup_lock t path token with
  | none => .error ()
  | some addr => .ok (unlockAt t addr token)

/-- Overwrite the timeout fields of a lock (`lock.timeout = ...;
lock.timeout_at = ...` in `refresh`). -/
def setTimeout (l : DavLock) (timeout : Option Nat) (now : Nat) : DavLock :=
  { l with timeout := timeout, timeout_at := timeout.map (fun d => now + d) }

/-- Update the first lock carrying the token in a node lock list. -/
def refreshLocks : List DavLock → String → Option Nat → Nat → List DavLock
  | [], _, _, _ => []
  | l :: rest, token, timeout, now =>
    if l.token == token then setTimeout l timeout now :: rest
    else l :: refreshLocks rest token timeout now

/-- The mutation performed by `refresh` at the node found by `lookup_lock`:
update the timeout fields of the first lock with the token in place and
return a copy of the updated lock. -/
def refreshAt : Tree → List String → String → Option Nat → Nat → Tree × Option DavLock
  | t, [], _, _, _ => (t, none)
  | .node locks children, s :: rest, token, timeout, now =>
    match getChild children s with
    | none => (.node locks children, none)
    | some c =>
      match rest with
      | [] =>
        (.node locks
          (setChild children s (.node (refreshLocks c.locks token timeout now) c.children)),
          (findToken c.locks token).map (fun l => setTimeout l timeout now))
      | _ =>
        let r := refreshAt c rest token timeout now
        (.node locks (setChild children s r.1), r.2)

/-- `refresh` (memls.rs lines 94-110).  The source `unwrap`s the lock found
at the node; here the returned descriptor is an `Option` which is proved to
be `some` whenever the lookup succeeded.  `now` models `SystemTime::now()`. -/
def refresh (t : Tree) (path : String) (token : String) (timeout : Option Nat) (now : Nat) :
    Except Unit (Tree × Option DavLock) :=
  match lookup_lock t path token with
  | none => .error ()
  | some addr => .ok (refreshAt t addr token timeout now)

/-- `check` (memls.rs lines 112-115): the ancestor walk with the submitted
tokens and `shared_ok = false`. -/
def check (t : Tree) (path : String) (subm : List String) : Except DavLock Unit :=
  check_locks_to_path t path subm false

/-- The walk part of `list_locks`: locks of each node reached by consuming a
segment, stopping at the first missing child. -/
def listLocksWalk : Tree → List String → List DavLock
  | _, [] => []
  | t, s :: rest =>
    match getChild t.children s with
    | none => []
    | some c => c.locks ++ listLocksWalk c rest

/-- `list_locks` (memls.rs lines 276-297) = `discover`: the root lock list
followed by the lock lists of the nodes along the path. -/
def list_locks (t : Tree) (path : String) : List DavLock :=
  t.locks ++ listLocksWalk t (splitSegs path)

/-- Modelled from the spec: `delete-subtree(node)` of the trie contract
(spec 4.1) — the node and everything beneath it are removed unconditionally.
Deleting the root (the whole trie) leaves an empty root node, since the root
id is a well-known constant that every operation starts from. -/
def deleteSubtreeAt : Tree → List String → Tree
  | _, [] => .node [] []
  | .node locks children, s :: rest =>
    match getChild children s with
    | none => .node locks children
    | some c =>
      match rest with
      | [] => .node locks (delChild children s)
      | _ => .node locks (setChild children s (deleteSubtreeAt c rest))

/-- `delete` (memls.rs lines 122-128): find the node for the path
(`lookup_node`) and delete its subtree; a missing node is a no-op.  Always
returns `Ok`. -/
def delete (t : Tree) (path : String) : Except Unit Tree :=
  match getNodeAt t (splitSegs path) with
  | none => .ok t
  | some _ => .ok (deleteSubtreeAt t (splitSegs path))

mutual
/-- Well-formedness of the modelled trie: children keys are distinct at every
node, the invariant the arena/HashMap representation of the source maintains
by construction. -/
def Tree.wf : Tree → Bool
  | .node _ children => childrenWf children

/-- Keys pairwise distinct and all child subtrees well-formed. -/
def childrenWf : List (String × Tree) → Bool
  | [] => true
  | (cs, c) :: rest => !(rest.any (fun p => p.1 == cs)) && Tree.wf c && childrenWf rest
end

/-! ## Analysis vocabulary

The following definitions re-express the traversals as computations over
plain lists, so that the behaviour of the walk can be characterised once and
reused by the claim theorems. -/

/-- The sequence of (lock, is-final-node) pairs inspected by the ancestor
walk of `check_locks_to_path` on a given tree and segment list, in visit
order. -/
def walkEntries : Tree → List String → List (DavLock × Bool)
  | t, [] => t.locks.map (fun l => (l, true))
  | t, s :: rest =>
    t.locks.map (fun l => (l, false)) ++
      (match getChild t.children s with
       | none => []
       | some c => walkEntries c rest)

/-- The lock loop of the ancestor walk, expressed directly on the flattened
entry list. -/
def processEntries : List (DavLock × Bool) → List String → Bool → Bool → Option DavLock →
    Except DavLock (Bool × Option DavLock)
  | [], _, _, holds, first => .ok (holds, first)
  | (nl, isLast) :: rest, subm, sharedOk, holds, first =>
    if !isLast && !nl.deep then processEntries rest subm sharedOk holds first
    else if subm.contains nl.token then processEntries rest subm sharedOk true first
    else if !nl.shared then .error nl
    else processEntries rest subm sharedOk holds
      (if sharedOk then first else some (first.getD nl))

/-- Left-biased choice on options (`get_or_insert` accumulation). -/
def optOr : Option DavLock → Option DavLock → Option DavLock
  | some x, _ => some x
  | none, y => y

/-- The entries of the ancestor walk that survive the depth filter: a lock is
relevant when it sits at the final node of the path or is a deep lock. -/
def relevantEntries (t : Tree) (path : String) : List (DavLock × Bool) :=
  (walkEntries t (splitSegs path)).filter (fun e => e.2 || e.1.deep)

/-- Closed-form outcome of `check_locks_to_path` in terms of the relevant
entries of the walk: the first unmatched exclusive lock conflicts; otherwise
the request succeeds when a token matched (or shared locks are tolerated),
and the first unmatched lock conflicts when nothing matched. -/
def checkSpec (fw : List (DavLock × Bool)) (subm : List String) (sharedOk : Bool) :
    Except DavLock Unit :=
  match fw.find? (fun e => !e.1.shared && !(subm.contains e.1.token)) with
  | some e => .error e.1
  | none =>
    if fw.any (fun e => subm.contains e.1.token) || sharedOk then .ok ()
    else
      match fw.find? (fun e => !(subm.contains e.1.token)) with
      | some e => .error e.1
      | none => .ok ()

mutual
/-- All locks in the subtree rooted at a node, in the depth-first order of
`check_locks_from_node`. -/
def subtreeLocks : Tree → List DavLock
  | .node locks children => locks ++ subtreeLocksChildren children

/-- Subtree locks of a child list, in order. -/
def subtreeLocksChildren : List (String × Tree) → List DavLock
  | [] => []
  | (_, c) :: rest => subtreeLocks c ++ subtreeLocksChildren rest
end

/-- The locks in the subtree rooted at the node for a path (empty when the
node does not exist). -/
def subtreeLocksAt (t : Tree) (path : String) : List DavLock :=
  match getNodeAt t (splitSegs path) with
  | none => []
  | some n => subtreeLocks n

/-- Written from the spec text of `discover` (spec 4.6), for the refinement
claim: the concatenation of the lock lists of every existing node whose path
is a prefix of the target path, from the root down. -/
def discoverSpec (t : Tree) (path : String) : List DavLock :=
  ((splitSegs path).inits.filterMap (fun p => (getNodeAt t p).map Tree.locks)).flatten

/-- The conflict reported by an acquire outcome (`none` on success). -/
def errOf : Except DavLock (Tree × DavLock) → Option DavLock
  | .error l => some l
  | .ok _ => none

/-! ## Characterisation of the ancestor walk -/

theorem scanNodeLocks_eq_processEntries (locks : List DavLock) (isLast : Bool)
    (subm : List String) (sharedOk : Bool) (holds : Bool) (first : Option DavLock) :
    scanNodeLocks locks isLast subm sharedOk holds first =
      processEntries (locks.map (fun l => (l, isLast))) subm sharedOk holds first := by
  induction locks generalizing holds first with
  | nil => rfl
  | cons nl rest ih =>
    simp only [List.map_cons, scanNodeLocks, processEntries]
    split_ifs with h1 h2 h3
    all_goals first | rfl | apply ih

theorem processEntries_append (a b : List (DavLock × Bool)) (subm : List String)
    (sharedOk : Bool) (holds : Bool) (first : Option DavLock) :
    processEntries (a ++ b) subm sharedOk holds first =
      match processEntries a subm sharedOk holds first with
      | .error l => .error l
      | .ok hf => processEntries b subm sharedOk hf.1 hf.2 := by
  induction a generalizing holds first with
  | nil => rfl
  | cons e rest ih =>
    obtain ⟨nl, isLast⟩ := e
    simp only [List.cons_append, processEntries]
    split_ifs with h1 h2 h3
    all_goals first | rfl | apply ih

theorem checkLocksToPathAux_eq (segs : List String) (t : Tree) (subm : List String)
    (sharedOk : Bool) (holds : Bool) (first : Option DavLock) :
    checkLocksToPathAux t segs subm sharedOk holds first =
      processEntries (walkEntries t segs) subm sharedOk holds first := by
  induction segs generalizing t holds first with
  | nil =>
    rw [checkLocksToPathAux]
    simp only [walkEntries, List.isEmpty_nil, scanNodeLocks_eq_processEntries]
    cases h : processEntries (t.locks.map (fun l => (l, true))) subm sharedOk holds first with
    | error l => rfl
    | ok hf => obtain ⟨h1, f1⟩ := hf; rfl
  | cons s rest ih =>
    rw [checkLocksToPathAux]
    simp only [walkEntries, List.isEmpty_cons,
      scanNodeLocks_eq_processEntries, processEntries_append]
    cases h : processEntries (t.locks.map (fun l => (l, false))) subm sharedOk holds first with
    | error l => rfl
    | ok hf =>
      obtain ⟨h1, f1⟩ := hf
      cases hc : getChild t.children s with
      | none => rfl
      | some c => exact ih c h1 f1

theorem optOr_some_left (x : DavLock) (y : Option DavLock) : optOr (some x) y = some x := rfl

theorem optOr_none_left (y : Option DavLock) : optOr none y = y := rfl

theorem optOr_none_right (a : Option DavLock) : optOr a none = a := by
  cases a <;> rfl

theorem some_getD (first : Option DavLock) (nl : DavLock) :
    some (first.getD nl) = optOr first (some nl) := by
  cases first <;> rfl

theorem optOr_assoc (a b c : Option DavLock) :
    optOr (optOr a b) c = optOr a (optOr b c) := by
  cases a <;> cases b <;> rfl

theorem processEntries_characterization (l : List (DavLock × Bool)) (subm : List String)
    (sharedOk : Bool) (holds : Bool) (first : Option DavLock) :
    processEntries l subm sharedOk holds first =
      match (l.filter (fun e => e.2 || e.1.deep)).find?
          (fun e => !e.1.shared && !(subm.contains e.1.token)) with
      | some e => .error e.1
      | none =>
        .ok (holds || (l.filter (fun e => e.2 || e.1.deep)).any
              (fun e => subm.contains e.1.token),
          if sharedOk then first
          else optOr first
            (((l.filter (fun e => e.2 || e.1.deep)).find?
                (fun e => !(subm.contains e.1.token))).map (fun e => e.1))) := by
  induction l generalizing holds first with
  | nil =>
    cases sharedOk <;> simp [processEntries, optOr_none_right]
  | cons e rest ih =>
    obtain ⟨nl, isLast⟩ := e
    by_cases hrel : (isLast || nl.deep) = true
    · have hskip : (!isLast && !nl.deep) = false := by
        cases isLast <;> cases hd : nl.deep <;> simp_all
      cases hm : subm.contains nl.token with
      | true =>
        simp only [List.contains, List.elem_eq_mem, decide_eq_true_eq] at hm
        rw [processEntries]
        simp [hskip, hm, ih, List.filter_cons, hrel]
      | false =>
        simp only [List.contains, List.elem_eq_mem, decide_eq_false_iff_not] at hm
        cases hsh : nl.shared with
        | true =>
          rw [processEntries]
          cases hso : sharedOk with
          | true =>
            rw [hso] at ih
            simp [hskip, hm, hsh, ih, List.filter_cons, hrel]
          | false =>
            rw [hso] at ih
            simp [hskip, hm, hsh, ih, List.filter_cons, hrel, some_getD, optOr_assoc,
              optOr_some_left]
        | false =>
          rw [processEntries]
          simp [hskip, hm, hsh, List.filter_cons, hrel]
    · have hrel2 : (isLast || nl.deep) = false := by
        cases h : (isLast || nl.deep)
        · rfl
        · exact absurd h hrel
      have hskip : (!isLast && !nl.deep) = true := by
        cases isLast <;> cases hd : nl.deep <;> simp_all
      rw [processEntries]
      simp [hskip, ih, List.filter_cons, hrel2]

theorem check_locks_to_path_eq (t : Tree) (path : String) (subm : List String)
    (sharedOk : Bool) :
    check_locks_to_path t path subm sharedOk = checkSpec (relevantEntries t path) subm sharedOk := by
  unfold check_locks_to_path checkSpec relevantEntries
  rw [checkLocksToPathAux_eq, processEntries_characterization]
  cases hf : (((walkEntries t (splitSegs path)).filter (fun e => e.2 || e.1.deep)).find?
      (fun e => !e.1.shared && !(subm.contains e.1.token))) with
  | some e => rfl
  | none =>
    simp only [Bool.false_or]
    cases hany : ((walkEntries t (splitSegs path)).filter (fun e => e.2 || e.1.deep)).any
        (fun e => subm.contains e.1.token) with
    | true => simp
    | false =>
      cases hso : sharedOk with
      | true => simp
      | false =>
        simp only [Bool.or_false, Bool.not_false, ite_true, ite_false, Bool.false_eq_true,
          optOr_none_left]
        cases hfu : (((walkEntries t (splitSegs path)).filter (fun e => e.2 || e.1.deep)).find?
            (fun e => !(subm.contains e.1.token))) with
        | some e => rfl
        | none => rfl

/-! ## Characterisation of the subtree check -/

mutual
theorem check_locks_from_node_eq (t : Tree) (sharedOk : Bool) :
    check_locks_from_node t sharedOk =
      match (subtreeLocks t).find? (fun nl => !nl.shared || !sharedOk) with
      | some nl => .error nl
      | none => .ok () := by
  cases t with
  | node locks children =>
    rw [check_locks_from_node, subtreeLocks]
    rw [List.find?_append]
    cases hf : locks.find? (fun nl => !nl.shared || !sharedOk) with
    | some nl => rfl
    | none =>
      simp only [Option.none_orElse]
      exact checkLocksFromChildren_eq children sharedOk

theorem checkLocksFromChildren_eq (ch : List (String × Tree)) (sharedOk : Bool) :
    checkLocksFromChildren ch sharedOk =
      match (subtreeLocksChildren ch).find? (fun nl => !nl.shared || !sharedOk) with
      | some nl => .error nl
      | none => .ok () := by
  cases ch with
  | nil => rfl
  | cons e rest =>
    obtain ⟨s, c⟩ := e
    rw [checkLocksFromChildren, subtreeLocksChildren]
    rw [List.find?_append]
    rw [check_locks_from_node_eq c sharedOk]
    cases hf : (subtreeLocks c).find? (fun nl => !nl.shared || !sharedOk) with
    | some nl => rfl
    | none =>
      simp only [Option.none_orElse]
      exact checkLocksFromChildren_eq rest sharedOk
end

theorem check_locks_from_path_eq (t : Tree) (path : String) (sharedOk : Bool) :
    check_locks_from_path t path sharedOk =
      match (subtreeLocksAt t path).find? (fun nl => !nl.shared || !sharedOk) with
      | some nl => .error nl
      | none => .ok () := by
  unfold check_locks_from_path subtreeLocksAt
  cases hn : getNodeAt t (splitSegs path) with
  | none => rfl
  | some n => exact check_locks_from_node_eq n sharedOk

theorem contains_iff_mem (subm : List String) (a : String) :
    subm.contains a = true ↔ a ∈ subm := by
  simp [List.contains, List.elem_eq_mem]

/-! ## Effect of adding a lock on walks and node lookups -/

theorem walkEntries_node_nil (q : List String) :
    walkEntries (Tree.node [] []) q = [] := by
  cases q with
  | nil => rfl
  | cons s rest => rfl

theorem getChild_setChild (ch : List (String × Tree)) (s : String) (c2 : Tree) (s2 : String) :
    getChild (setChild ch s c2) s2 = if s2 = s then some c2 else getChild ch s2 := by
  induction ch with
  | nil =>
    rw [setChild]
    by_cases h : s2 = s
    · subst h
      simp [getChild]
    · have h2 : ¬ s = s2 := fun hh => h hh.symm
      simp [getChild, h, h2]
  | cons e rest ih =>
    obtain ⟨cs, c⟩ := e
    rw [setChild]
    by_cases hcs : cs = s
    · subst hcs
      rw [if_pos rfl]
      by_cases h2 : s2 = cs
      · subst h2
        simp [getChild]
      · have h3 : ¬ cs = s2 := fun hh => h2 hh.symm
        simp [getChild, h2, h3]
    · rw [if_neg hcs]
      by_cases h2 : cs = s2
      · subst h2
        simp [getChild, hcs]
      · simp only [getChild, if_neg hcs, if_neg h2]
        rw [ih]

theorem walkEntries_addLockAt (p : List String) (t : Tree) (r : List String) (l : DavLock) :
    ∃ pre suf,
      walkEntries (addLockAt t p l) (p ++ r) = pre ++ (l, r.isEmpty) :: suf ∧
      walkEntries t (p ++ r) = pre ++ suf ∧
      ∀ e ∈ pre, ∃ b, (e.1, b) ∈ walkEntries t p ∧ (e.2 = true → b = true) := by
  induction p generalizing t with
  | nil =>
    cases t with
    | node locks ch =>
      cases r with
      | nil =>
        refine ⟨locks.map (fun x => (x, true)), [], ?_, ?_, ?_⟩
        · rw [addLockAt]
          simp [walkEntries, Tree.locks]
        · simp [walkEntries, Tree.locks]
        · intro e he
          simp only [List.mem_map] at he
          obtain ⟨x, hx, hex⟩ := he
          refine ⟨true, ?_, fun _ => rfl⟩
          simp only [walkEntries, Tree.locks, List.mem_map]
          exact ⟨x, hx, by rw [← hex]⟩
      | cons s r2 =>
        refine ⟨locks.map (fun x => (x, false)),
          (match getChild ch s with
           | none => []
           | some c => walkEntries c (s :: r2).tail), ?_, ?_, ?_⟩
        · rw [addLockAt]
          simp only [List.nil_append, walkEntries, Tree.locks, Tree.children,
            List.map_append, List.isEmpty_cons]
          simp
        · simp [walkEntries, Tree.locks, Tree.children]
        · intro e he
          simp only [List.mem_map] at he
          obtain ⟨x, hx, hex⟩ := he
          refine ⟨true, ?_, fun _ => rfl⟩
          simp only [walkEntries, Tree.locks, List.mem_map]
          exact ⟨x, hx, by rw [← hex]⟩
  | cons s p2 ih =>
    cases t with
    | node locks ch =>
      cases hc : getChild ch s with
      | some c =>
        have hwalk : ∀ q : List String,
            walkEntries (Tree.node locks ch) (s :: q) =
              locks.map (fun x => (x, false)) ++ walkEntries c q := by
          intro q
          simp [walkEntries, Tree.locks, Tree.children, hc]
        have hwalk2 : ∀ q : List String,
            walkEntries (addLockAt (Tree.node locks ch) (s :: p2) l) (s :: q) =
              locks.map (fun x => (x, false)) ++ walkEntries (addLockAt c p2 l) q := by
          intro q
          rw [addLockAt]
          simp only [walkEntries, Tree.locks, Tree.children]
          rw [getChild_setChild]
          simp [hc]
        obtain ⟨pre2, suf2, h1, h2, h3⟩ := ih c
        refine ⟨locks.map (fun x => (x, false)) ++ pre2, suf2, ?_, ?_, ?_⟩
        · rw [List.cons_append, hwalk2, h1, List.append_assoc]
        · rw [List.cons_append, hwalk, h2, List.append_assoc]
        · intro e he
          rw [List.mem_append] at he
          cases he with
          | inl hel =>
            simp only [List.mem_map] at hel
            obtain ⟨x, hx, hex⟩ := hel
            refine ⟨false, ?_, ?_⟩
            · rw [hwalk p2, List.mem_append]
              exact Or.inl (List.mem_map.2 ⟨x, hx, by rw [← hex]⟩)
            · intro h
              rw [← hex] at h
              exact absurd h (by simp)
          | inr her =>
            obtain ⟨b, hb, hbi⟩ := h3 e her
            refine ⟨b, ?_, hbi⟩
            rw [hwalk p2, List.mem_append]
            exact Or.inr hb
      | none =>
        have hwalk : ∀ q : List String,
            walkEntries (Tree.node locks ch) (s :: q) =
              locks.map (fun x => (x, false)) := by
          intro q
          simp [walkEntries, Tree.locks, Tree.children, hc]
        have hwalk2 : ∀ q : List String,
            walkEntries (addLockAt (Tree.node locks ch) (s :: p2) l) (s :: q) =
              locks.map (fun x => (x, false)) ++
                walkEntries (addLockAt (Tree.node [] []) p2 l) q := by
          intro q
          rw [addLockAt]
          simp only [walkEntries, Tree.locks, Tree.children]
          rw [getChild_setChild]
          simp [hc]
        obtain ⟨pre2, suf2, h1, h2, h3⟩ := ih (Tree.node [] [])
        rw [walkEntries_node_nil] at h2
        have hpre2 : pre2 = [] := (List.append_eq_nil.1 h2.symm).1
        have hsuf2 : suf2 = [] := (List.append_eq_nil.1 h2.symm).2
        subst hpre2
        subst hsuf2
        refine ⟨locks.map (fun x => (x, false)), [], ?_, ?_, ?_⟩
        · rw [List.cons_append, hwalk2, h1]
          simp
        · rw [List.cons_append, hwalk]
          simp
        · intro e he
          simp only [List.mem_map] at he
          obtain ⟨x, hx, hex⟩ := he
          refine ⟨false, ?_, ?_⟩
          · rw [hwalk p2]
            simp only [List.mem_map]
            exact ⟨x, hx, by rw [← hex]⟩
          · intro h
            rw [← hex] at h
            exact absurd h (by simp)

theorem getNodeAt_addLockAt_empty (p2 : List String) (r : List String) (l : DavLock)
    (hr : r ≠ []) :
    getNodeAt (addLockAt (Tree.node [] []) p2 l) (p2 ++ r) = none := by
  induction p2 with
  | nil =>
    cases r with
    | nil => exact absurd rfl hr
    | cons s r2 =>
      rw [addLockAt]
      simp [getNodeAt, getChild, Tree.children]
  | cons s p3 ih =>
    rw [addLockAt]
    simp only [List.cons_append, getNodeAt, Tree.children]
    rw [getChild_setChild]
    simp only [if_pos rfl, getChild, Option.getD_none]
    exact ih

theorem getNodeAt_addLockAt (p : List String) (t : Tree) (r : List String) (l : DavLock)
    (hr : r ≠ []) :
    getNodeAt (addLockAt t p l) (p ++ r) = getNodeAt t (p ++ r) := by
  induction p generalizing t with
  | nil =>
    cases t with
    | node locks ch =>
      cases r with
      | nil => exact absurd rfl hr
      | cons s r2 =>
        rw [addLockAt]
        simp [getNodeAt, Tree.children]
  | cons s p2 ih =>
    cases t with
    | node locks ch =>
      rw [addLockAt]
      simp only [List.cons_append, getNodeAt, Tree.children]
      rw [getChild_setChild]
      cases hc : getChild ch s with
      | some c =>
        simp only [hc, if_pos rfl, Option.getD_some]
        exact ih c
      | none =>
        simp only [hc, if_pos rfl, Option.getD_none]
        simp [getNodeAt_addLockAt_empty p2 r l hr]

theorem find?_true_eq_head? (l : List (DavLock × Bool)) :
    l.find? (fun _ => true) = l.head? := by
  cases l with
  | nil => rfl
  | cons e rest => rfl

theorem check_to_path_no_tokens (t : Tree) (path : String) (sharedOk : Bool) :
    check_locks_to_path t path [] sharedOk =
      match (relevantEntries t path).find? (fun e => !e.1.shared) with
      | some e => .error e.1
      | none =>
        if sharedOk then .ok ()
        else
          match (relevantEntries t path).head? with
          | some e => .error e.1
          | none => .ok () := by
  rw [check_locks_to_path_eq]
  unfold checkSpec
  have hp1 : (fun (e : DavLock × Bool) => !e.1.shared && !(List.contains [] e.1.token)) =
      (fun (e : DavLock × Bool) => !e.1.shared) := by
    funext e
    simp [List.contains]
  have hp2 : (fun (e : DavLock × Bool) => List.contains [] e.1.token) =
      (fun (_ : DavLock × Bool) => false) := by
    funext e
    simp [List.contains]
  have hp3 : (fun (e : DavLock × Bool) => !(List.contains [] e.1.token)) =
      (fun (_ : DavLock × Bool) => true) := by
    funext e
    simp [List.contains]
  rw [hp1, hp2, hp3, find?_true_eq_head?]
  cases hf : (relevantEntries t path).find? (fun e => !e.1.shared) with
  | some e => rfl
  | none =>
    have hanyf : (relevantEntries t path).any (fun _ => false) = false := by
      simp
    rw [hanyf]
    cases hs : sharedOk with
    | true => simp
    | false =>
      simp only [Bool.false_or, if_false, Bool.false_eq_true]

/-! ## Claim theorems -/

/-- C3: for `check`/`verify(path, tokens)` on any state, if at least one
submitted token equals the token of at least one lock encountered along the
ancestor walk (after the non-deep-at-ancestor filter), then the first-shared-
lock conflict is suppressed for the whole walk: the check succeeds if and
only if no exclusive lock with an unsubmitted token is encountered; the
matching lock need not be the blocking one. -/
theorem claim3_token_suppression (t : Tree) (path : String) (subm : List String)
    (hmatch : ∃ e ∈ relevantEntries t path, e.1.token ∈ subm) :
    check t path subm = .ok () ↔
      ∀ e ∈ relevantEntries t path, e.1.shared = false → e.1.token ∈ subm := by
  have hany : (relevantEntries t path).any (fun e => subm.contains e.1.token) = true := by
    rw [List.any_eq_true]
    obtain ⟨e, he, hm⟩ := hmatch
    exact ⟨e, he, (contains_iff_mem subm e.1.token).2 hm⟩
  unfold check
  rw [check_locks_to_path_eq]
  unfold checkSpec
  cases hf : (relevantEntries t path).find?
      (fun e => !e.1.shared && !(subm.contains e.1.token)) with
  | some e =>
    simp only [hany, Bool.true_or, if_true]
    constructor
    · intro h
      exact absurd h (by simp)
    · intro h
      have hmem := List.mem_of_find?_eq_some hf
      have hp := List.find?_some hf
      simp only [Bool.and_eq_true, Bool.not_eq_true'] at hp
      obtain ⟨hsh, hct⟩ := hp
      have := h e hmem hsh
      rw [(contains_iff_mem subm e.1.token).symm] at this
      rw [hct] at this
      exact absurd this (by simp)
  | none =>
    simp only [hany, Bool.true_or, if_true]
    constructor
    · intro _ e he hsh
      have := List.find?_eq_none.1 hf e he
      simp only [Bool.and_eq_true, Bool.not_eq_true', not_and] at this
      have h2 := this hsh
      rcases hc : subm.contains e.1.token with _ | _
      · exact absurd hc h2
      · exact (contains_iff_mem subm e.1.token).1 hc
    · intro _
      trivial

/-- C3 witness: a shared deep lock at an ancestor would block, but matching a
different lock further along the walk suppresses it. -/
theorem claim3_witness :
    let lockA : DavLock := ⟨"TA", "/a", none, none, none, true, true⟩
    let lockB : DavLock := ⟨"TB", "/a/b", none, none, none, true, false⟩
    let t : Tree := .node [] [("a", .node [lockA] [("b", .node [lockB] [])])]
    check t "/a/b" ["TB"] = .ok () := by
  intro lockA lockB t
  have h := claim3_token_suppression t "/a/b" ["TB"]
    ⟨(⟨"TB", "/a/b", none, none, none, true, false⟩, true), by decide, by decide⟩
  exact h.2 (by decide)

/-- C2: for a deep acquire whose ancestor walk has passed, the subtree rooted
at the target decides the outcome: the acquire succeeds exactly when every
lock in the subtree is shared and the request is shared; the first offending
lock in depth-first order is the reported conflict; in particular any
exclusive lock anywhere below blocks, and for an exclusive request any lock
below blocks. -/
theorem claim2_deep_subtree_check (t : Tree) (path : String) (owner : Option String)
    (timeout : Option Nat) (shared : Bool) (token : String) (now : Nat)
    (hpath : check_locks_to_path t path [] shared = .ok ()) :
    ((∃ r, lock t path owner timeout shared true token now = .ok r) ↔
        ∀ l ∈ subtreeLocksAt t path, shared = true ∧ l.shared = true) ∧
      (∀ l, (subtreeLocksAt t path).find? (fun nl => !nl.shared || !shared) = some l →
        lock t path owner timeout shared true token now = .error l) ∧
      (∀ l ∈ subtreeLocksAt t path, l.shared = false →
        ∃ e, lock t path owner timeout shared true token now = .error e ∧
          e ∈ subtreeLocksAt t path ∧ (!e.shared || !shared) = true) := by
  have hlock : lock t path owner timeout shared true token now =
      match (subtreeLocksAt t path).find? (fun nl => !nl.shared || !shared) with
      | some nl => .error nl
      | none =>
        .ok (addLockAt t (splitSegs path)
          { token := token, path := path, owner := owner,
            timeout_at := timeout.map (fun d => now + d), timeout := timeout,
            shared := shared, deep := true },
          { token := token, path := path, owner := owner,
            timeout_at := timeout.map (fun d => now + d), timeout := timeout,
            shared := shared, deep := true }) := by
    rw [lock, hpath]
    simp only [if_true, ite_true]
    rw [check_locks_from_path_eq]
    cases hf : (subtreeLocksAt t path).find? (fun nl => !nl.shared || !shared) with
    | some nl => rfl
    | none => rfl
  refine ⟨?_, ?_, ?_⟩
  · rw [hlock]
    cases hf : (subtreeLocksAt t path).find? (fun nl => !nl.shared || !shared) with
    | some nl =>
      constructor
      · intro hr
        obtain ⟨r, hr⟩ := hr
        exact absurd hr (by simp)
      · intro h
        have hmem := List.mem_of_find?_eq_some hf
        have hp := List.find?_some hf
        obtain ⟨hsh, hshr⟩ := h nl hmem
        rw [hsh, hshr] at hp
        exact absurd hp (by simp)
    | none =>
      constructor
      · intro _ l hl
        have := List.find?_eq_none.1 hf l hl
        simp only [Bool.or_eq_true, Bool.not_eq_true', not_or] at this
        obtain ⟨h1, h2⟩ := this
        simp only [Bool.not_eq_false] at h1 h2
        exact ⟨h2, h1⟩
      · intro _
        exact ⟨_, rfl⟩
  · intro l hf
    rw [hlock, hf]
  · intro l hl hsh
    have hex : ∃ e ∈ subtreeLocksAt t path, (!e.shared || !shared) = true := by
      refine ⟨l, hl, ?_⟩
      simp [hsh]
    rcases hf : (subtreeLocksAt t path).find? (fun nl => !nl.shared || !shared) with _ | e
    · obtain ⟨e, he, hp⟩ := hex
      exact absurd hp (by simpa using List.find?_eq_none.1 hf e he)
    · have hmem := List.mem_of_find?_eq_some hf
      have hp := List.find?_some hf
      refine ⟨e, ?_, hmem, hp⟩
      rw [hlock, hf]

/-- C2 witness: a deep exclusive acquire at `/a` is blocked by the shared
lock stored below at `/a/b`, which is returned as the conflict. -/
theorem claim2_witness :
    let lockB : DavLock := ⟨"TB", "/a/b", none, none, none, true, false⟩
    let t : Tree := .node [] [("a", .node [] [("b", .node [lockB] [])])]
    lock t "/a" none none false true "N" 0 = .error lockB := by
  intro lockB t
  exact (claim2_deep_subtree_check t "/a" none none false "N" 0 rfl).2.1
    ⟨"TB", "/a/b", none, none, none, true, false⟩ (by decide)

/-- C1: for a fresh acquire (no submitted tokens): (1) a non-deep lock
attached at a strict ancestor of the path never contributes to the outcome
(adding one leaves the reported conflict unchanged); (2) the first relevant
exclusive lock of the walk — one attached at the path itself or deep at an
ancestor — is returned as the conflict; (3) whenever a relevant exclusive
lock exists along the walk, the acquire fails with such a lock. -/
theorem claim1_acquire_walk (t : Tree) (path : String) (owner : Option String)
    (timeout : Option Nat) (shared deep : Bool) (token : String) (now : Nat) :
    (∀ p r lk, lk.deep = false → splitSegs path = p ++ r → r ≠ [] →
        errOf (lock (addLockAt t p lk) path owner timeout shared deep token now) =
          errOf (lock t path owner timeout shared deep token now)) ∧
      (∀ e b, (relevantEntries t path).find? (fun x => !x.1.shared) = some (e, b) →
        lock t path owner timeout shared deep token now = .error e) ∧
      (∀ e b, (e, b) ∈ relevantEntries t path → e.shared = false →
        ∃ e2 b2, lock t path owner timeout shared deep token now = .error e2 ∧
          (e2, b2) ∈ relevantEntries t path ∧ e2.shared = false) := by
  have hpart2 : ∀ e b, (relevantEntries t path).find? (fun x => !x.1.shared) = some (e, b) →
      lock t path owner timeout shared deep token now = .error e := by
    intro e b hf
    rw [lock, check_to_path_no_tokens, hf]
  refine ⟨?_, hpart2, ?_⟩
  · intro p r lk hdeep hsplit hr
    have hre : r.isEmpty = false := by
      cases r with
      | nil => exact absurd rfl hr
      | cons a as => rfl
    obtain ⟨pre, suf, h1, h2, h3⟩ := walkEntries_addLockAt p t r lk
    have hfeq : relevantEntries (addLockAt t p lk) path = relevantEntries t path := by
      unfold relevantEntries
      rw [hsplit, h1, h2, List.filter_append, List.filter_append, List.filter_cons]
      simp [hre, hdeep]
    have hcheck : check_locks_to_path (addLockAt t p lk) path [] shared =
        check_locks_to_path t path [] shared := by
      rw [check_locks_to_path_eq, check_locks_to_path_eq, hfeq]
    have hdeepc : check_locks_from_path (addLockAt t p lk) path shared =
        check_locks_from_path t path shared := by
      unfold check_locks_from_path
      rw [hsplit, getNodeAt_addLockAt p t r lk hr]
    rw [lock, lock, hcheck, hdeepc]
    cases hc : check_locks_to_path t path [] shared with
    | error l => rfl
    | ok u =>
      cases hd : (if deep then check_locks_from_path t path shared else .ok ()) with
      | error l => rfl
      | ok v => rfl
  · intro e b he hsh
    rcases hf2 : (relevantEntries t path).find? (fun x => !x.1.shared) with _ | e2
    · have hnone := List.find?_eq_none.1 hf2 (e, b) he
      rw [hsh] at hnone
      exact absurd (by simp : (!false) = true) hnone
    · obtain ⟨e2, b2⟩ := e2
      have hmem := List.mem_of_find?_eq_some hf2
      have hp := List.find?_some hf2
      simp only [Bool.not_eq_true'] at hp
      exact ⟨e2, b2, hpart2 e2 b2 hf2, hmem, hp⟩

/-- C1 witness: inserting a non-deep lock at the strict ancestor `/a` of
`/a/b` leaves the outcome unchanged, and an exclusive lock at the path itself
is returned as the conflict. -/
theorem claim1_witness :
    let lockN : DavLock := ⟨"TN", "/a", none, none, none, true, false⟩
    let lockX : DavLock := ⟨"TX", "/a", none, none, none, false, false⟩
    let t2 : Tree := .node [] [("a", .node [lockX] [])]
    errOf (lock (addLockAt emptyTree ["a"] lockN) "/a/b" none none false false "N" 5) =
        errOf (lock emptyTree "/a/b" none none false false "N" 5) ∧
      lock t2 "/a" none none true false "N" 5 = .error lockX := by
  intro lockN lockX t2
  constructor
  · exact (claim1_acquire_walk emptyTree "/a/b" none none false false "N" 5).1
      ["a"] ["b"] ⟨"TN", "/a", none, none, none, true, false⟩ rfl (by decide) (by decide)
  · exact (claim1_acquire_walk t2 "/a" none none true false "N" 5).2.1
      ⟨"TX", "/a", none, none, none, false, false⟩ true (by decide)

/-- C5 as stated is false: a non-deep exclusive lock at `/a` does not block a
subsequent acquire at the strict descendant `/a/b`; the second acquire
succeeds instead of failing with a conflict citing the first lock. -/
theorem claim5_counterexample :
    lock emptyTree "/a" none none false false "T1" 0 =
        .ok (Tree.node [] [("a", Tree.node [⟨"T1", "/a", none, none, none, false, false⟩] [])],
          ⟨"T1", "/a", none, none, none, false, false⟩) ∧
      lock (Tree.node [] [("a", Tree.node [⟨"T1", "/a", none, none, none, false, false⟩] [])])
          "/a/b" none none false false "T2" 0 =
        .ok (Tree.node [] [("a", Tree.node [⟨"T1", "/a", none, none, none, false, false⟩]
              [("b", Tree.node [⟨"T2", "/a/b", none, none, none, false, false⟩] [])])],
          ⟨"T2", "/a/b", none, none, none, false, false⟩) := by
  exact ⟨rfl, rfl⟩

/-- C5 amended: after a successful exclusive acquire at `P`, a subsequent
acquire fails with a conflict citing exactly that lock when it targets `P`
itself, or — provided the exclusive lock is deep — any descendant of `P`.
(A non-deep exclusive lock does not block strict descendants.) -/
theorem claim5_exclusive_blocks (t : Tree) (P P2 : String) (o o2 : Option String)
    (tmo tmo2 : Option Nat) (deep sh2 dp2 : Bool) (tok tok2 : String) (now now2 : Nat)
    (t2 : Tree) (L : DavLock) (r : List String)
    (hs : lock t P o tmo false deep tok now = .ok (t2, L))
    (hP2 : splitSegs P2 = splitSegs P ++ r)
    (hr : r = [] ∨ deep = true) :
    lock t2 P2 o2 tmo2 sh2 dp2 tok2 now2 = .error L := by
  rw [lock] at hs
  cases hc : check_locks_to_path t P [] false with
  | error l =>
    rw [hc] at hs
    simp at hs
  | ok u =>
    rw [hc] at hs
    cases u
    cases hd : (if deep then check_locks_from_path t P false else .ok ()) with
    | error l =>
      rw [hd] at hs
      simp at hs
    | ok v =>
      rw [hd] at hs
      cases v
      simp only [Except.ok.injEq, Prod.mk.injEq] at hs
      obtain ⟨ht2, hL⟩ := hs
      -- the successful exclusive walk saw no relevant entries at all
      rw [check_to_path_no_tokens] at hc
      have hnil : relevantEntries t P = [] := by
        cases hf : (relevantEntries t P).find? (fun e => !e.1.shared) with
        | some e =>
          rw [hf] at hc
          simp at hc
        | none =>
          rw [hf] at hc
          simp only [Bool.false_eq_true, if_false] at hc
          cases hh : (relevantEntries t P).head? with
          | some e =>
            rw [hh] at hc
            simp at hc
          | none => exact List.head?_eq_none_iff.1 hh
      have hfw : ∀ e ∈ walkEntries t (splitSegs P), (e.2 || e.1.deep) = false := by
        intro e he
        have := List.filter_eq_nil_iff.1 hnil e he
        simpa using this
      obtain ⟨pre, suf, h1, h2, h3⟩ := walkEntries_addLockAt (splitSegs P) t r
        { token := tok, path := P, owner := o, timeout_at := tmo.map (fun d => now + d),
          timeout := tmo, shared := false, deep := deep }
      have hprefilter : pre.filter (fun e => e.2 || e.1.deep) = [] := by
        rw [List.filter_eq_nil_iff]
        intro e he
        obtain ⟨b, hb, hbi⟩ := h3 e he
        have hwb := hfw (e.1, b) hb
        simp only [Bool.or_eq_false_iff] at hwb
        obtain ⟨hb0, hdeep0⟩ := hwb
        have he2 : e.2 = false := by
          cases hee : e.2 with
          | false => rfl
          | true => rw [hbi hee] at hb0; exact absurd hb0 (by simp)
        simp [he2, hdeep0]
      have hLdeep : (r.isEmpty ||
          ({ token := tok, path := P, owner := o, timeout_at := tmo.map (fun d => now + d),
             timeout := tmo, shared := false, deep := deep } : DavLock).deep) = true := by
        cases hr with
        | inl h0 =>
          subst h0
          rfl
        | inr h0 =>
          simp [h0]
      have hrel2 : relevantEntries t2 P2 =
          ({ token := tok, path := P, owner := o, timeout_at := tmo.map (fun d => now + d),
             timeout := tmo, shared := false, deep := deep }, r.isEmpty) ::
            suf.filter (fun e => e.2 || e.1.deep) := by
        unfold relevantEntries
        rw [hP2, ← ht2, h1, List.filter_append, hprefilter, List.filter_cons]
        simp only [hLdeep, if_true, List.nil_append]
      have hcheck2 : check_locks_to_path t2 P2 [] sh2 = .error
          { token := tok, path := P, owner := o, timeout_at := tmo.map (fun d => now + d),
            timeout := tmo, shared := false, deep := deep } := by
        rw [check_to_path_no_tokens, hrel2]
        rw [List.find?_cons_of_pos _ (by simp)]
      rw [lock, hcheck2, ← hL]

/-- C5 witness: a deep exclusive lock freshly acquired at `/a` blocks a
subsequent shared acquire at the descendant `/a/b`, citing that lock. -/
theorem claim5_witness :
    lock (Tree.node [] [("a", Tree.node [⟨"T1", "/a", none, none, none, false, true⟩] [])])
        "/a/b" none none true false "N" 7 =
      .error ⟨"T1", "/a", none, none, none, false, true⟩ :=
  claim5_exclusive_blocks emptyTree "/a" "/a/b" none none none none true true false
    "T1" "N" 0 7
    (Tree.node [] [("a", Tree.node [⟨"T1", "/a", none, none, none, false, true⟩] [])])
    ⟨"T1", "/a", none, none, none, false, true⟩ ["b"] rfl rfl (Or.inr rfl)

/-! ## Token lookup and the unlock/refresh mutations -/

theorem any_token_eq_false_of_getChild_none (ch : List (String × Tree)) (s : String)
    (h : ch.any (fun p => p.1 == s) = false) : getChild ch s = none := by
  induction ch with
  | nil => rfl
  | cons e rest ih =>
    obtain ⟨cs, c⟩ := e
    simp only [List.any_cons, Bool.or_eq_false_iff] at h
    obtain ⟨h1, h2⟩ := h
    rw [getChild, if_neg (by simpa using h1)]
    exact ih h2

theorem getChild_delChild_ne (ch : List (String × Tree)) (s s2 : String) (h : s2 ≠ s) :
    getChild (delChild ch s) s2 = getChild ch s2 := by
  induction ch with
  | nil => rfl
  | cons e rest ih =>
    obtain ⟨cs, c⟩ := e
    rw [delChild]
    by_cases hcs : cs = s
    · rw [if_pos hcs, getChild, if_neg (by rw [hcs]; exact fun hh => h hh.symm)]
    · rw [if_neg hcs, getChild, getChild]
      by_cases h2 : cs = s2
      · rw [if_pos h2, if_pos h2]
      · rw [if_neg h2, if_neg h2, ih]

theorem getChild_delChild_self (ch : List (String × Tree)) (s : String)
    (hwf : childrenWf ch = true) : getChild (delChild ch s) s = none := by
  induction ch with
  | nil => rfl
  | cons e rest ih =>
    obtain ⟨cs, c⟩ := e
    rw [childrenWf] at hwf
    simp only [Bool.and_eq_true, Bool.not_eq_true'] at hwf
    obtain ⟨⟨hdup, hcwf⟩, hrest⟩ := hwf
    rw [delChild]
    by_cases hcs : cs = s
    · rw [if_pos hcs]
      subst hcs
      exact any_token_eq_false_of_getChild_none rest cs hdup
    · rw [if_neg hcs, getChild, if_neg hcs]
      exact ih hrest

theorem wf_getChild (ch : List (String × Tree)) (s : String) (c : Tree)
    (hwf : childrenWf ch = true) (hc : getChild ch s = some c) : c.wf = true := by
  induction ch with
  | nil => exact absurd hc (by simp [getChild])
  | cons e rest ih =>
    obtain ⟨cs, c0⟩ := e
    rw [childrenWf] at hwf
    simp only [Bool.and_eq_true] at hwf
    obtain ⟨⟨hdup, hcwf⟩, hrest⟩ := hwf
    rw [getChild] at hc
    by_cases hcs : cs = s
    · rw [if_pos hcs] at hc
      cases hc
      exact hcwf
    · rw [if_neg hcs] at hc
      exact ih hrest hc

theorem wf_node (locks : List DavLock) (ch : List (String × Tree)) :
    Tree.wf (.node locks ch) = childrenWf ch := rfl

theorem lookupLockAux_none_iff (segs : List String) (t : Tree) (token : String) :
    lookupLockAux t segs token = none ↔
      ∀ p n, p ≠ [] → p <+: segs → getNodeAt t p = some n →
        n.locks.any (fun l => l.token == token) = false := by
  induction segs generalizing t with
  | nil =>
    constructor
    · intro _ p n hne hpre _
      rw [List.prefix_nil] at hpre
      exact absurd hpre hne
    · intro _
      rfl
  | cons s rest ih =>
    rw [lookupLockAux]
    cases hc : getChild t.children s with
    | none =>
      constructor
      · intro _ p n hne hpre hget
        obtain ⟨u, hu⟩ := hpre
        cases p with
        | nil => exact absurd rfl hne
        | cons a p2 =>
          rw [List.cons_append] at hu
          injection hu with ha hu2
          subst ha
          rw [getNodeAt, hc] at hget
          exact absurd hget (by simp)
      · intro _
        rfl
    | some c =>
      cases hany : c.locks.any (fun l => l.token == token) with
      | true =>
        simp only [if_pos rfl, hany, ite_true]
        constructor
        · intro h
          exact absurd h (by simp)
        · intro h
          have := h [s] c (by simp) ⟨rest, rfl⟩ (by rw [getNodeAt, hc]; rfl)
          rw [hany] at this
          exact absurd this (by simp)
      | false =>
        simp only [hany, Bool.false_eq_true, if_false, Option.map_eq_none']
        rw [ih c]
        constructor
        · intro h p n hne hpre hget
          cases p with
          | nil => exact absurd rfl hne
          | cons a p2 =>
            obtain ⟨u, hu⟩ := hpre
            rw [List.cons_append] at hu
            injection hu with ha hu2
            subst ha
            rw [getNodeAt, hc] at hget
            cases p2 with
            | nil =>
              cases hget
              exact hany
            | cons b p3 =>
              exact h (b :: p3) n (by simp) ⟨u, hu2⟩ hget
        · intro h p n hne hpre hget
          have := h (s :: p) n (by simp) ?_ ?_
          · exact this
          · obtain ⟨u, hu⟩ := hpre
            exact ⟨u, by rw [List.cons_append, hu]⟩
          · rw [getNodeAt, hc]
            exact hget

theorem lookupLockAux_some (segs : List String) (t : Tree) (token : String)
    (addr : List String) (hl : lookupLockAux t segs token = some addr) :
    addr ≠ [] ∧ addr <+: segs ∧
      (∃ n, getNodeAt t addr = some n ∧
        n.locks.any (fun l => l.token == token) = true) ∧
      (∀ p n, p ≠ [] → p <+: addr → p ≠ addr → getNodeAt t p = some n →
        n.locks.any (fun l => l.token == token) = false) := by
  induction segs generalizing t addr with
  | nil => exact absurd hl (by simp [lookupLockAux])
  | cons s rest ih =>
    rw [lookupLockAux] at hl
    cases hc : getChild t.children s with
    | none =>
      rw [hc] at hl
      exact absurd hl (by simp)
    | some c =>
      rw [hc] at hl
      cases hany : c.locks.any (fun l => l.token == token) with
      | true =>
        have hl2 : some [s] = some addr := by
          rw [← hl]
          simp [hany]
        injection hl2 with hl3
        subst hl3
        refine ⟨by simp, ⟨rest, rfl⟩, ⟨c, by rw [getNodeAt, hc]; rfl, hany⟩, ?_⟩
        intro p n hne hpre hpne hget
        obtain ⟨u, hu⟩ := hpre
        cases p with
        | nil => exact absurd rfl hne
        | cons a p2 =>
          rw [List.cons_append] at hu
          injection hu with ha hu2
          subst ha
          cases p2 with
          | nil => exact absurd rfl hpne
          | cons b p3 => exact absurd hu2 (by simp)
      | false =>
        have hl2 : (lookupLockAux c rest token).map (fun a => s :: a) = some addr := by
          rw [← hl]
          simp [hany]
        rw [Option.map_eq_some'] at hl2
        obtain ⟨a2, ha2, haddr⟩ := hl2
        obtain ⟨hne2, hpre2, ⟨n2, hn2, hany2⟩, hmin2⟩ := ih c a2 ha2
        subst haddr
        refine ⟨by simp, ?_, ⟨n2, ?_, hany2⟩, ?_⟩
        · obtain ⟨u, hu⟩ := hpre2
          exact ⟨u, by rw [List.cons_append, hu]⟩
        · rw [getNodeAt, hc]
          exact hn2
        · intro p n hne hpre hpne hget
          cases p with
          | nil => exact absurd rfl hne
          | cons a p2 =>
            obtain ⟨u, hu⟩ := hpre
            rw [List.cons_append] at hu
            injection hu with ha hu2
            subst ha
            rw [getNodeAt, hc] at hget
            cases p2 with
            | nil =>
              cases hget
              exact hany
            | cons b p3 =>
              refine hmin2 (b :: p3) n (by simp) ⟨u, hu2⟩ ?_ hget
              intro hh
              rw [hh] at hpne
              exact hpne rfl

theorem getNodeAt_cons (locks : List DavLock) (ch : List (String × Tree)) (a : String)
    (q : List String) :
    getNodeAt (Tree.node locks ch) (a :: q) =
      match getChild ch a with
      | none => none
      | some c => getNodeAt c q := rfl

theorem getNodeAt_nil (t : Tree) : getNodeAt t [] = some t := rfl

theorem getNodeAt_cons_none (locks : List DavLock) (ch : List (String × Tree)) (a : String)
    (q : List String) (h : getChild ch a = none) :
    getNodeAt (Tree.node locks ch) (a :: q) = none := by
  rw [getNodeAt_cons, h]

theorem getNodeAt_cons_some (locks : List DavLock) (ch : List (String × Tree)) (a : String)
    (q : List String) (c : Tree) (h : getChild ch a = some c) :
    getNodeAt (Tree.node locks ch) (a :: q) = getNodeAt c q := by
  rw [getNodeAt_cons, h]

theorem unlockAt_locks (addr : List String) (t : Tree) (token : String) (q : List String)
    (hwf : t.wf = true) (haddr : addr ≠ []) :
    (getNodeAt (unlockAt t addr token) q).map Tree.locks =
      (if q = addr then
        match getNodeAt t addr with
        | none => none
        | some n =>
          if (removeFirstToken n.locks token).isEmpty && n.children.isEmpty then none
          else some (removeFirstToken n.locks token)
      else (getNodeAt t q).map Tree.locks) := by
  induction addr generalizing t q with
  | nil => exact absurd rfl haddr
  | cons s rest ih =>
    cases t with
    | node locks ch =>
      have hwfc : childrenWf ch = true := hwf
      rw [unlockAt]
      cases hc : getChild ch s with
      | none =>
        have hget : getNodeAt (Tree.node locks ch) (s :: rest) = none :=
          getNodeAt_cons_none locks ch s rest hc
        by_cases hq : q = s :: rest
        · rw [if_pos hq, hget, hq, hget]
          rfl
        · rw [if_neg hq]
      | some c =>
        have hgetc : ∀ q2, getNodeAt (Tree.node locks ch) (s :: q2) = getNodeAt c q2 :=
          fun q2 => getNodeAt_cons_some locks ch s q2 c hc
        cases rest with
        | nil =>
          simp only []
          by_cases hdel :
              ((removeFirstToken c.locks token).isEmpty && c.children.isEmpty) = true
          · have hdel2 : ((Tree.node (removeFirstToken c.locks token) c.children).locks.isEmpty
                && (Tree.node (removeFirstToken c.locks token) c.children).children.isEmpty)
                = true := hdel
            rw [if_pos hdel2]
            cases q with
            | nil =>
              rw [if_neg (by simp)]
              rfl
            | cons a q2 =>
              by_cases ha : a = s
              · subst ha
                rw [getNodeAt_cons_none locks (delChild ch a) a q2
                  (getChild_delChild_self ch a hwfc)]
                cases q2 with
                | nil =>
                  rw [if_pos rfl, hgetc [], getNodeAt_nil]
                  dsimp only
                  rw [if_pos hdel]
                  rfl
                | cons b q3 =>
                  rw [if_neg (by simp), hgetc (b :: q3)]
                  have hcch : c.children = [] := by
                    have h0 := hdel
                    simp only [Bool.and_eq_true, List.isEmpty_iff] at h0
                    exact h0.2
                  cases c with
                  | node cl cch =>
                    simp only [Tree.children] at hcch
                    subst hcch
                    rw [getNodeAt_cons_none cl [] b q3 rfl]
              · rw [getNodeAt_cons, getChild_delChild_ne ch s a ha,
                  if_neg (by intro hh; injection hh with h1 h2; exact ha h1)]
                rw [getNodeAt_cons]
          · have hdel2 : ¬ ((Tree.node (removeFirstToken c.locks token) c.children).locks.isEmpty
                && (Tree.node (removeFirstToken c.locks token) c.children).children.isEmpty)
                = true := hdel
            rw [if_neg hdel2]
            cases q with
            | nil =>
              rw [if_neg (by simp)]
              rfl
            | cons a q2 =>
              by_cases ha : a = s
              · subst ha
                rw [getNodeAt_cons_some locks _ a q2 _
                  (by rw [getChild_setChild]; exact if_pos rfl)]
                cases q2 with
                | nil =>
                  rw [getNodeAt_nil, if_pos rfl, hgetc [], getNodeAt_nil]
                  dsimp only
                  rw [if_neg hdel]
                  rfl
                | cons b q3 =>
                  rw [if_neg (by simp), hgetc (b :: q3)]
                  cases c with
                  | node cl cch =>
                    rw [getNodeAt_cons, getNodeAt_cons]
                    rfl
              · rw [if_neg (by intro hh; injection hh with h1 h2; exact ha h1)]
                rw [getNodeAt_cons, getChild_setChild, if_neg ha, getNodeAt_cons]
        | cons s2 rest2 =>
          simp only []
          cases q with
          | nil =>
            rw [if_neg (by simp)]
            rfl
          | cons a q2 =>
            by_cases ha : a = s
            · subst ha
              rw [getNodeAt_cons_some locks _ a q2 _
                (by rw [getChild_setChild]; exact if_pos rfl)]
              have hwfcc : c.wf = true := wf_getChild ch a c hwfc hc
              rw [ih c q2 hwfcc (by simp)]
              by_cases hq2 : q2 = s2 :: rest2
              · rw [if_pos hq2, if_pos (by rw [hq2]), hgetc (s2 :: rest2)]
              · rw [if_neg hq2,
                  if_neg (by intro hh; injection hh with h1 h2; exact hq2 h2), hgetc q2]
            · rw [if_neg (by intro hh; injection hh with h1 h2; exact ha h1)]
              rw [getNodeAt_cons, getChild_setChild, if_neg ha, getNodeAt_cons]

theorem refreshAt_locks (addr : List String) (t : Tree) (token : String) (tmo : Option Nat)
    (now : Nat) (q : List String) (haddr : addr ≠ []) :
    (getNodeAt (refreshAt t addr token tmo now).1 q).map Tree.locks =
      (if q = addr then
        (getNodeAt t addr).map (fun n => refreshLocks n.locks token tmo now)
      else (getNodeAt t q).map Tree.locks) := by
  induction addr generalizing t q with
  | nil => exact absurd rfl haddr
  | cons s rest ih =>
    cases t with
    | node locks ch =>
      rw [refreshAt]
      cases hc : getChild ch s with
      | none =>
        have hget : getNodeAt (Tree.node locks ch) (s :: rest) = none :=
          getNodeAt_cons_none locks ch s rest hc
        dsimp only
        by_cases hq : q = s :: rest
        · rw [if_pos hq, hq, hget]
          rfl
        · rw [if_neg hq]
      | some c =>
        have hgetc : ∀ q2, getNodeAt (Tree.node locks ch) (s :: q2) = getNodeAt c q2 :=
          fun q2 => getNodeAt_cons_some locks ch s q2 c hc
        cases rest with
        | nil =>
          dsimp only
          cases q with
          | nil =>
            rw [if_neg (by simp)]
            rfl
          | cons a q2 =>
            by_cases ha : a = s
            · subst ha
              rw [getNodeAt_cons_some locks _ a q2 _
                (by rw [getChild_setChild]; exact if_pos rfl)]
              cases q2 with
              | nil =>
                rw [getNodeAt_nil, if_pos rfl, hgetc [], getNodeAt_nil]
                rfl
              | cons b q3 =>
                rw [if_neg (by simp), hgetc (b :: q3)]
                cases c with
                | node cl cch =>
                  rw [getNodeAt_cons, getNodeAt_cons]
                  rfl
            · rw [if_neg (by intro hh; injection hh with h1 h2; exact ha h1)]
              rw [getNodeAt_cons, getChild_setChild, if_neg ha, getNodeAt_cons]
        | cons s2 rest2 =>
          dsimp only
          cases q with
          | nil =>
            rw [if_neg (by simp)]
            rfl
          | cons a q2 =>
            by_cases ha : a = s
            · subst ha
              rw [getNodeAt_cons_some locks _ a q2 _
                (by rw [getChild_setChild]; exact if_pos rfl)]
              rw [ih c q2 (by simp)]
              by_cases hq2 : q2 = s2 :: rest2
              · rw [if_pos hq2, if_pos (by rw [hq2]), hgetc (s2 :: rest2)]
              · rw [if_neg hq2,
                  if_neg (by intro hh; injection hh with h1 h2; exact hq2 h2), hgetc q2]
            · rw [if_neg (by intro hh; injection hh with h1 h2; exact ha h1)]
              rw [getNodeAt_cons, getChild_setChild, if_neg ha, getNodeAt_cons]

theorem refreshAt_result (addr : List String) (t : Tree) (token : String) (tmo : Option Nat)
    (now : Nat) (haddr : addr ≠ []) :
    (refreshAt t addr token tmo now).2 =
      (getNodeAt t addr).bind
        (fun n => (findToken n.locks token).map (fun l => setTimeout l tmo now)) := by
  induction addr generalizing t with
  | nil => exact absurd rfl haddr
  | cons s rest ih =>
    cases t with
    | node locks ch =>
      rw [refreshAt]
      cases hc : getChild ch s with
      | none =>
        dsimp only
        rw [getNodeAt_cons_none locks ch s rest hc]
        rfl
      | some c =>
        cases rest with
        | nil =>
          dsimp only
          rw [getNodeAt_cons_some locks ch s [] c hc, getNodeAt_nil]
          rfl
        | cons s2 rest2 =>
          dsimp only
          rw [getNodeAt_cons_some locks ch s (s2 :: rest2) c hc]
          exact ih c (by simp)

theorem findToken_isSome_eq_any (locks : List DavLock) (token : String) :
    (findToken locks token).isSome = locks.any (fun l => l.token == token) := by
  induction locks with
  | nil => rfl
  | cons l rest ih =>
    rw [findToken, List.any_cons]
    by_cases h : (l.token == token) = true
    · rw [if_pos h, h]
      rfl
    · have h2 : (l.token == token) = false := by
        cases hx : l.token == token
        · rfl
        · exact absurd hx h
      rw [if_neg h, h2, ih]
      rfl

theorem findToken_some_of_any (locks : List DavLock) (token : String)
    (h : locks.any (fun l => l.token == token) = true) :
    ∃ l, findToken locks token = some l := by
  have := findToken_isSome_eq_any locks token
  rw [h] at this
  cases hf : findToken locks token with
  | none =>
    rw [hf] at this
    exact absurd this (by simp)
  | some l => exact ⟨l, rfl⟩

theorem refreshLocks_decomp (locks : List DavLock) (token : String) (tmo : Option Nat)
    (now : Nat) (l : DavLock) (h : findToken locks token = some l) :
    ∃ pre post, locks = pre ++ l :: post ∧ (∀ x ∈ pre, (x.token == token) = false) ∧
      refreshLocks locks token tmo now = pre ++ setTimeout l tmo now :: post := by
  induction locks with
  | nil => exact absurd h (by simp [findToken])
  | cons x rest ih =>
    rw [findToken] at h
    by_cases hx : (x.token == token) = true
    · rw [if_pos hx] at h
      injection h with h
      subst h
      exact ⟨[], rest, rfl, by simp, by rw [refreshLocks, if_pos hx]; rfl⟩
    · have hx2 : (x.token == token) = false := by
        cases hxx : x.token == token
        · rfl
        · exact absurd hxx hx
      rw [if_neg hx] at h
      obtain ⟨pre, post, h1, h2, h3⟩ := ih h
      refine ⟨x :: pre, post, by rw [h1]; rfl, ?_, ?_⟩
      · intro y hy
        rcases List.mem_cons.1 hy with hy1 | hy2
        · rw [hy1]
          exact hx2
        · exact h2 y hy2
      · rw [refreshLocks, if_neg hx, h3, List.cons_append]

/-- C4 as stated is false: releasing the only lock of `/a` while `/a/b` still
holds a lock empties the lock list of the node at `/a`, yet the node is not
deleted — `delete_node` only removes childless nodes and `unlock` ignores its
error — so a node whose lock list became empty survives with its children. -/
theorem claim4_counterexample :
    unlock (Tree.node [] [("a", Tree.node [⟨"T1", "/a", none, none, none, false, false⟩]
        [("b", Tree.node [⟨"T2", "/a/b", none, none, none, true, false⟩] [])])]) "/a" "T1" =
      .ok (Tree.node [] [("a", Tree.node []
        [("b", Tree.node [⟨"T2", "/a/b", none, none, none, true, false⟩] [])])]) ∧
    (getNodeAt (Tree.node [] [("a", Tree.node []
        [("b", Tree.node [⟨"T2", "/a/b", none, none, none, true, false⟩] [])])]) ["a"]).isSome
      = true :=
  ⟨rfl, rfl⟩

/-- C4 amended: `release(path, token)` fails with NotFound exactly when no
node along the path (root excluded, since the walk consumes a segment before
inspecting) carries the token; otherwise the lock is removed from the
shallowest carrying node; the node is deleted when its lock list becomes
empty and it has no children (a node with children survives with an empty
lock list); no other node lock list changes.  Stated for well-formed tries
(distinct child keys), the invariant of the source HashMap. -/
theorem claim4_release (t : Tree) (path token : String) (hwf : t.wf = true) :
    (unlock t path token = .error () ↔
      ∀ p n, p ≠ [] → p <+: splitSegs path → getNodeAt t p = some n →
        n.locks.any (fun l => l.token == token) = false) ∧
    (∀ addr, lookup_lock t path token = some addr →
      addr ≠ [] ∧ addr <+: splitSegs path ∧
      (∀ p n, p ≠ [] → p <+: addr → p ≠ addr → getNodeAt t p = some n →
        n.locks.any (fun l => l.token == token) = false) ∧
      ∃ n t2, getNodeAt t addr = some n ∧
        n.locks.any (fun l => l.token == token) = true ∧
        unlock t path token = .ok t2 ∧
        (((removeFirstToken n.locks token).isEmpty && n.children.isEmpty) = true →
          getNodeAt t2 addr = none) ∧
        (((removeFirstToken n.locks token).isEmpty && n.children.isEmpty) = false →
          (getNodeAt t2 addr).map Tree.locks = some (removeFirstToken n.locks token)) ∧
        (∀ q, q ≠ addr →
          (getNodeAt t2 q).map Tree.locks = (getNodeAt t q).map Tree.locks)) := by
  constructor
  · rw [unlock]
    cases hl : lookup_lock t path token with
    | none =>
      simp only [true_iff]
      exact (lookupLockAux_none_iff (splitSegs path) t token).1 hl
    | some addr =>
      constructor
      · intro h
        exact absurd h (by simp)
      · intro h
        obtain ⟨hne, hpre, ⟨n, hn, hany⟩, _⟩ := lookupLockAux_some (splitSegs path) t token addr hl
        have := h addr n hne hpre hn
        rw [hany] at this
        exact absurd this (by simp)
  · intro addr hl
    obtain ⟨hne, hpre, ⟨n, hn, hany⟩, hmin⟩ := lookupLockAux_some (splitSegs path) t token addr hl
    refine ⟨hne, hpre, hmin, n, unlockAt t addr token, hn, hany, ?_, ?_, ?_, ?_⟩
    · rw [unlock, hl]
    · intro hdel
      have hq := unlockAt_locks addr t token addr hwf hne
      rw [if_pos rfl, hn] at hq
      dsimp only at hq
      rw [if_pos hdel] at hq
      exact Option.map_eq_none'.1 hq
    · intro hdel
      have hq := unlockAt_locks addr t token addr hwf hne
      rw [if_pos rfl, hn] at hq
      dsimp only at hq
      rw [if_neg (by rw [hdel]; simp)] at hq
      exact hq
    · intro q hq
      have h2 := unlockAt_locks addr t token q hwf hne
      rw [if_neg hq] at h2
      exact h2

/-- C4 witness: the NotFound characterisation instantiated on a concrete
well-formed trie. -/
theorem claim4_witness :
    unlock (Tree.node [] [("a",
        Tree.node [⟨"T1", "/a", none, none, none, false, false⟩] [])]) "/a" "TX" =
        .error () ↔
      ∀ p n, p ≠ [] → p <+: splitSegs "/a" →
        getNodeAt (Tree.node [] [("a",
          Tree.node [⟨"T1", "/a", none, none, none, false, false⟩] [])]) p = some n →
        n.locks.any (fun l => l.token == "TX") = false :=
  (claim4_release (Tree.node [] [("a",
    Tree.node [⟨"T1", "/a", none, none, none, false, false⟩] [])]) "/a" "TX" (by decide)).1

/-- C6: `refresh` fails with NotFound exactly when `release` does; on success
it returns the located lock with only the `timeout` and `timeout_at` fields
replaced (token, path, owner, shared, deep unchanged), rewrites only that one
lock in the trie — every other node lock list and the whole trie shape are
untouched. -/
theorem claim6_refresh (t : Tree) (path token : String) (tmo : Option Nat) (now : Nat) :
    (refresh t path token tmo now = .error () ↔ unlock t path token = .error ()) ∧
    (∀ addr, lookup_lock t path token = some addr →
      ∃ n l t2, getNodeAt t addr = some n ∧ findToken n.locks token = some l ∧
        refresh t path token tmo now = .ok (t2, some (setTimeout l tmo now)) ∧
        (setTimeout l tmo now).token = l.token ∧
        (setTimeout l tmo now).path = l.path ∧
        (setTimeout l tmo now).owner = l.owner ∧
        (setTimeout l tmo now).shared = l.shared ∧
        (setTimeout l tmo now).deep = l.deep ∧
        (setTimeout l tmo now).timeout = tmo ∧
        (setTimeout l tmo now).timeout_at = tmo.map (fun d => now + d) ∧
        (∃ pre post, n.locks = pre ++ l :: post ∧
          (∀ x ∈ pre, (x.token == token) = false) ∧
          (getNodeAt t2 addr).map Tree.locks =
            some (pre ++ setTimeout l tmo now :: post)) ∧
        (∀ q, q ≠ addr →
          (getNodeAt t2 q).map Tree.locks = (getNodeAt t q).map Tree.locks) ∧
        (∀ q, (getNodeAt t2 q).isSome = (getNodeAt t q).isSome)) := by
  constructor
  · rw [refresh, unlock]
    cases hl : lookup_lock t path token with
    | none =>
      dsimp only
      constructor
      · intro _
        rfl
      · intro _
        rfl
    | some addr =>
      dsimp only
      constructor
      · intro h
        exact Except.noConfusion h
      · intro h
        exact Except.noConfusion h
  · intro addr hl
    obtain ⟨hne, hpre, ⟨n, hn, hany⟩, hmin⟩ := lookupLockAux_some (splitSegs path) t token addr hl
    obtain ⟨l, hfind⟩ := findToken_some_of_any n.locks token hany
    refine ⟨n, l, (refreshAt t addr token tmo now).1, hn, hfind, ?_, rfl, rfl, rfl, rfl, rfl,
      rfl, rfl, ?_, ?_, ?_⟩
    · have hsnd := refreshAt_result addr t token tmo now hne
      rw [hn] at hsnd
      simp only [Option.some_bind] at hsnd
      rw [hfind] at hsnd
      have hsnd2 : (refreshAt t addr token tmo now).2 = some (setTimeout l tmo now) := hsnd
      rw [refresh, hl]
      dsimp only
      rw [← hsnd2]
    · obtain ⟨pre, post, h1, h2, h3⟩ := refreshLocks_decomp n.locks token tmo now l hfind
      refine ⟨pre, post, h1, h2, ?_⟩
      have hq := refreshAt_locks addr t token tmo now addr hne
      rw [if_pos rfl, hn] at hq
      rw [hq]
      have hmap : (some n).map (fun n2 => refreshLocks n2.locks token tmo now) =
          some (refreshLocks n.locks token tmo now) := rfl
      rw [hmap, h3]
    · intro q hq
      have h2 := refreshAt_locks addr t token tmo now q hne
      rw [if_neg hq] at h2
      exact h2
    · intro q
      by_cases hq : q = addr
      · rw [hq, hn]
        have h2 := refreshAt_locks addr t token tmo now addr hne
        rw [if_pos rfl, hn] at h2
        have h3 : (getNodeAt (refreshAt t addr token tmo now).1 addr).isSome = true := by
          cases hx : getNodeAt (refreshAt t addr token tmo now).1 addr with
          | none =>
            rw [hx] at h2
            exact absurd h2.symm (by simp)
          | some y => rfl
        rw [h3]
        rfl
      · have h2 := refreshAt_locks addr t token tmo now q hne
        rw [if_neg hq] at h2
        cases hx : getNodeAt (refreshAt t addr token tmo now).1 q with
        | none =>
          rw [hx] at h2
          cases hy : getNodeAt t q with
          | none => rfl
          | some y =>
            rw [hy] at h2
            exact absurd h2.symm (by simp)
        | some x =>
          rw [hx] at h2
          cases hy : getNodeAt t q with
          | none =>
            rw [hy] at h2
            exact absurd h2 (by simp)
          | some y => rfl

/-- C6 witness: refreshing the only lock of `/a` with a new timeout, applied
to a concrete trie, with the lookup hypothesis discharged by computation. -/
theorem claim6_witness :
    ∃ n l t2,
      getNodeAt (Tree.node [] [("a",
          Tree.node [⟨"T1", "/a", none, some 1, some 1, true, false⟩] [])]) ["a"] = some n ∧
      findToken n.locks "T1" = some l ∧
      refresh (Tree.node [] [("a",
          Tree.node [⟨"T1", "/a", none, some 1, some 1, true, false⟩] [])]) "/a" "T1"
          (some 5) 100 = .ok (t2, some (setTimeout l (some 5) 100)) ∧
      (setTimeout l (some 5) 100).token = l.token ∧
      (setTimeout l (some 5) 100).path = l.path ∧
      (setTimeout l (some 5) 100).owner = l.owner ∧
      (setTimeout l (some 5) 100).shared = l.shared ∧
      (setTimeout l (some 5) 100).deep = l.deep ∧
      (setTimeout l (some 5) 100).timeout = some 5 ∧
      (setTimeout l (some 5) 100).timeout_at = (some 5).map (fun d => 100 + d) ∧
      (∃ pre post, n.locks = pre ++ l :: post ∧
        (∀ x ∈ pre, (x.token == "T1") = false) ∧
        (getNodeAt t2 ["a"]).map Tree.locks =
          some (pre ++ setTimeout l (some 5) 100 :: post)) ∧
      (∀ q, q ≠ ["a"] →
        (getNodeAt t2 q).map Tree.locks =
          (getNodeAt (Tree.node [] [("a",
            Tree.node [⟨"T1", "/a", none, some 1, some 1, true, false⟩] [])]) q).map
            Tree.locks) ∧
      (∀ q, (getNodeAt t2 q).isSome =
        (getNodeAt (Tree.node [] [("a",
          Tree.node [⟨"T1", "/a", none, some 1, some 1, true, false⟩] [])]) q).isSome) :=
  (claim6_refresh (Tree.node [] [("a",
    Tree.node [⟨"T1", "/a", none, some 1, some 1, true, false⟩] [])]) "/a" "T1"
    (some 5) 100).2 ["a"] rfl

/-! ## Enumerate, cascade delete and the root-path quirk -/

theorem getNodeAt_append (p : List String) (t : Tree) (r : List String) :
    getNodeAt t (p ++ r) = (getNodeAt t p).bind (fun c => getNodeAt c r) := by
  induction p generalizing t with
  | nil => rfl
  | cons s p2 ih =>
    cases t with
    | node locks ch =>
      rw [List.cons_append, getNodeAt_cons]
      cases hc : getChild ch s with
      | none =>
        rw [getNodeAt_cons_none locks ch s p2 hc]
        rfl
      | some c =>
        rw [getNodeAt_cons_some locks ch s p2 c hc]
        exact ih c

theorem list_locks_mem (segs : List String) (t : Tree) (l : DavLock)
    (hl : l ∈ t.locks ++ listLocksWalk t segs) :
    ∃ p n, p <+: segs ∧ getNodeAt t p = some n ∧ l ∈ n.locks := by
  induction segs generalizing t with
  | nil =>
    rw [listLocksWalk, List.append_nil] at hl
    exact ⟨[], t, List.nil_prefix, rfl, hl⟩
  | cons s rest ih =>
    rw [listLocksWalk] at hl
    cases hc : getChild t.children s with
    | none =>
      rw [hc] at hl
      simp only [List.append_nil] at hl
      exact ⟨[], t, List.nil_prefix, rfl, hl⟩
    | some c =>
      rw [hc] at hl
      rcases List.mem_append.1 hl with hroot | hbelow
      · exact ⟨[], t, List.nil_prefix, rfl, hroot⟩
      · obtain ⟨p2, n, hp2, hn, hmem⟩ := ih c (List.mem_append.2 (by simpa using hbelow))
        refine ⟨s :: p2, n, ?_, ?_, hmem⟩
        · rw [List.cons_prefix_cons]
          exact ⟨rfl, hp2⟩
        · cases t with
          | node locks ch =>
            rw [getNodeAt_cons_some locks ch s p2 c hc]
            exact hn

/-- C7 as stated is false: with a lock at `/a` and no node at `/a/b`,
`enumerate("/a/b")` returns the ancestor lock rather than the empty set. -/
theorem claim7_counterexample :
    getNodeAt (Tree.node [] [("a",
        Tree.node [⟨"T1", "/a", none, none, none, true, false⟩] [])])
      (splitSegs "/a/b") = none ∧
    list_locks (Tree.node [] [("a",
        Tree.node [⟨"T1", "/a", none, none, none, true, false⟩] [])]) "/a/b" =
      [⟨"T1", "/a", none, none, none, true, false⟩] ∧
    list_locks (Tree.node [] [("a",
        Tree.node [⟨"T1", "/a", none, none, none, true, false⟩] [])]) "/a/b" ≠ [] :=
  ⟨rfl, rfl, by decide⟩

theorem list_locks_prefix_concat (segs : List String) (t : Tree) :
    t.locks ++ listLocksWalk t segs =
      (segs.inits.filterMap (fun p => (getNodeAt t p).map Tree.locks)).flatten := by
  induction segs generalizing t with
  | nil =>
    rw [listLocksWalk]
    cases t with
    | node locks ch =>
      simp [List.inits, Tree.locks, getNodeAt_nil]
  | cons s rest ih =>
    cases t with
    | node locks ch =>
      have hinit : (s :: rest).inits = [] :: rest.inits.map (fun p => s :: p) := rfl
      rw [listLocksWalk, hinit, List.filterMap_cons, List.filterMap_map]
      cases hc : getChild ch s with
      | none =>
        have hnone : ∀ p ∈ rest.inits,
            ((fun p => (getNodeAt (Tree.node locks ch) p).map Tree.locks) ∘
              (fun p => s :: p)) p = none := by
          intro p _
          simp only [Function.comp_apply]
          rw [getNodeAt_cons_none locks ch s p hc]
          rfl
        rw [List.filterMap_eq_nil_iff.2 hnone]
        simp [getNodeAt_nil, Tree.locks, Tree.children, hc]
      | some c =>
        have hcomp : ((fun p => (getNodeAt (Tree.node locks ch) p).map Tree.locks) ∘
            (fun p => s :: p)) = (fun p => (getNodeAt c p).map Tree.locks) := by
          funext p
          simp only [Function.comp_apply]
          rw [getNodeAt_cons_some locks ch s p c hc]
        have hhead : Option.map Tree.locks (getNodeAt (Tree.node locks ch) []) =
            some locks := rfl
        rw [hcomp, hhead]
        dsimp only [Tree.locks, Tree.children]
        rw [hc]
        dsimp only
        rw [List.flatten_cons, ← ih c]
        rfl

theorem filterMap_filter_of_none (f : List String → Option (List DavLock))
    (pred : List String → Bool) (l : List (List String))
    (h : ∀ a ∈ l, pred a = false → f a = none) :
    (l.filter pred).filterMap f = l.filterMap f := by
  induction l with
  | nil => rfl
  | cons a rest ih =>
    have hrest : ∀ b ∈ rest, pred b = false → f b = none :=
      fun b hb => h b (List.mem_cons_of_mem a hb)
    cases hp : pred a with
    | true =>
      rw [List.filter_cons_of_pos hp, List.filterMap_cons, List.filterMap_cons]
      cases hf : f a with
      | none =>
        dsimp only
        exact ih hrest
      | some b =>
        dsimp only
        rw [ih hrest]
    | false =>
      rw [List.filter_cons_of_neg (by simp [hp]), List.filterMap_cons,
        h a (List.mem_cons_self a rest) hp]
      dsimp only
      exact ih hrest

/-- C7 amended: `enumerate` is total (never fails); when no trie node exists
at exactly the path, it returns exactly the concatenation of the lock lists
of the existing nodes at the strict-ancestor prefixes of the path (the root
included) — a list that need not be empty — and in particular every returned
lock is attached at the root or at an existing strict ancestor. -/
theorem claim7_enumerate_missing (t : Tree) (path : String)
    (hnone : getNodeAt t (splitSegs path) = none) :
    (list_locks t path =
      ((((splitSegs path).inits.filter (fun p => !(p == splitSegs path))).filterMap
        (fun p => (getNodeAt t p).map Tree.locks)).flatten)) ∧
    ∀ l ∈ list_locks t path, ∃ p n, p <+: splitSegs path ∧ p ≠ splitSegs path ∧
      getNodeAt t p = some n ∧ l ∈ n.locks := by
  constructor
  · have hcond : ∀ p ∈ (splitSegs path).inits, (!(p == splitSegs path)) = false →
        (getNodeAt t p).map Tree.locks = none := by
      intro p _ hp
      have hbeq : (p == splitSegs path) = true := by
        cases hb : p == splitSegs path with
        | false =>
          rw [hb] at hp
          exact absurd hp (by simp)
        | true => rfl
      rw [eq_of_beq hbeq, hnone]
      rfl
    rw [filterMap_filter_of_none _ _ _ hcond]
    unfold list_locks
    exact list_locks_prefix_concat (splitSegs path) t
  · intro l hl
    obtain ⟨p, n, hpre, hn, hmem⟩ := list_locks_mem (splitSegs path) t l hl
    refine ⟨p, n, hpre, ?_, hn, hmem⟩
    intro hp
    rw [hp, hnone] at hn
    exact Option.noConfusion hn

/-- C7 witness: the exact-value description instantiated on the
counterexample state, where the returned list is the ancestor lock alone. -/
theorem claim7_witness :
    list_locks (Tree.node [] [("a",
        Tree.node [⟨"T1", "/a", none, none, none, true, false⟩] [])]) "/a/b" =
      ((((splitSegs "/a/b").inits.filter (fun p => !(p == splitSegs "/a/b"))).filterMap
        (fun p => (getNodeAt (Tree.node [] [("a",
          Tree.node [⟨"T1", "/a", none, none, none, true, false⟩] [])]) p).map
          Tree.locks)).flatten) :=
  (claim7_enumerate_missing (Tree.node [] [("a",
    Tree.node [⟨"T1", "/a", none, none, none, true, false⟩] [])]) "/a/b" rfl).1

/-- C8: `discover`/`enumerate` returns exactly the concatenation of the lock
lists of the existing nodes whose path is a prefix of the target path, root
first — hence no lock of a strict descendant, and, being a pure function of
the state, it modifies nothing. -/
theorem claim8_enumerate_refines (t : Tree) (path : String) :
    list_locks t path = discoverSpec t path := by
  unfold list_locks discoverSpec
  exact list_locks_prefix_concat (splitSegs path) t

theorem deleteSubtreeAt_locks (p : List String) (t : Tree) (q : List String)
    (hwf : t.wf = true) :
    (getNodeAt (deleteSubtreeAt t p) q).map Tree.locks =
      (if p <+: q then (if q = [] then some ([] : List DavLock) else none)
      else (getNodeAt t q).map Tree.locks) := by
  induction p generalizing t q with
  | nil =>
    rw [deleteSubtreeAt]
    cases q with
    | nil =>
      rw [if_pos List.nil_prefix, if_pos rfl]
      rfl
    | cons a q2 =>
      rw [if_pos List.nil_prefix, if_neg (by simp)]
      rw [getNodeAt_cons_none [] [] a q2 rfl]
      rfl
  | cons s rest ih =>
    cases t with
    | node locks ch =>
      have hwfc : childrenWf ch = true := hwf
      rw [deleteSubtreeAt]
      cases hc : getChild ch s with
      | none =>
        have hflat : ∀ q2 : List String,
            getNodeAt (Tree.node locks ch) (s :: q2) = none :=
          fun q2 => getNodeAt_cons_none locks ch s q2 hc
        cases q with
        | nil =>
          rw [if_neg (by simp)]
        | cons a q2 =>
          by_cases ha : a = s
          · subst ha
            by_cases hpre : rest <+: q2
            · rw [if_pos (List.cons_prefix_cons.2 ⟨rfl, hpre⟩), if_neg (by simp), hflat q2]
              rfl
            · rw [if_neg (by rw [List.cons_prefix_cons]; exact fun hh => hpre hh.2)]
          · rw [if_neg (by rw [List.cons_prefix_cons]; exact fun hh => ha hh.1.symm)]
      | some c =>
        have hgetc : ∀ q2, getNodeAt (Tree.node locks ch) (s :: q2) = getNodeAt c q2 :=
          fun q2 => getNodeAt_cons_some locks ch s q2 c hc
        cases rest with
        | nil =>
          dsimp only
          cases q with
          | nil =>
            rw [if_neg (by simp)]
            rfl
          | cons a q2 =>
            by_cases ha : a = s
            · subst ha
              rw [if_pos (List.cons_prefix_cons.2 ⟨rfl, List.nil_prefix⟩),
                if_neg (by simp)]
              rw [getNodeAt_cons_none locks (delChild ch a) a q2
                (getChild_delChild_self ch a hwfc)]
              rfl
            · rw [if_neg (by rw [List.cons_prefix_cons]; exact fun hh => ha hh.1.symm)]
              rw [getNodeAt_cons, getChild_delChild_ne ch s a ha, getNodeAt_cons]
        | cons s2 rest2 =>
          dsimp only
          cases q with
          | nil =>
            rw [if_neg (by simp)]
            rfl
          | cons a q2 =>
            by_cases ha : a = s
            · subst ha
              rw [getNodeAt_cons_some locks _ a q2 _
                (by rw [getChild_setChild]; exact if_pos rfl)]
              have hwfcc : c.wf = true := wf_getChild ch a c hwfc hc
              rw [ih c q2 hwfcc]
              by_cases hpre : (s2 :: rest2) <+: q2
              · have hq2 : q2 ≠ [] := by
                  intro hh
                  rw [hh] at hpre
                  rw [List.prefix_nil] at hpre
                  exact List.noConfusion hpre
                rw [if_pos hpre, if_neg hq2,
                  if_pos (List.cons_prefix_cons.2 ⟨rfl, hpre⟩), if_neg (by simp)]
              · rw [if_neg hpre,
                  if_neg (by rw [List.cons_prefix_cons]; exact fun hh => hpre hh.2),
                  hgetc q2]
            · rw [if_neg (by rw [List.cons_prefix_cons]; exact fun hh => ha hh.1.symm)]
              rw [getNodeAt_cons, getChild_setChild, if_neg ha, getNodeAt_cons]

/-- C9: `delete(path)` always returns Ok; if a node exists at exactly the
path, it and its whole subtree are removed — afterwards no lock remains at
the path or below (for the root path the root node is cleared rather than
removed) — and no other node lock list changes; if no node exists at the
path the state is unchanged.  Stated for well-formed tries (distinct child
keys), the invariant of the source HashMap. -/
theorem claim9_cascade_delete (t : Tree) (path : String) (hwf : t.wf = true) :
    ∃ t2, delete t path = .ok t2 ∧
      (∀ q n, splitSegs path <+: q → getNodeAt t2 q = some n → n.locks = []) ∧
      (∀ q, ¬ splitSegs path <+: q →
        (getNodeAt t2 q).map Tree.locks = (getNodeAt t q).map Tree.locks) ∧
      (getNodeAt t (splitSegs path) = none → t2 = t) ∧
      (splitSegs path ≠ [] → (getNodeAt t (splitSegs path)).isSome = true →
        getNodeAt t2 (splitSegs path) = none) := by
  rw [delete]
  cases hn : getNodeAt t (splitSegs path) with
  | none =>
    refine ⟨t, rfl, ?_, fun q _ => rfl, fun _ => rfl, ?_⟩
    · intro q n hpre hget
      obtain ⟨r, hr⟩ := hpre
      rw [← hr, getNodeAt_append, hn] at hget
      exact Option.noConfusion hget
    · intro _ _
      exact hn
  | some node0 =>
    refine ⟨deleteSubtreeAt t (splitSegs path), rfl, ?_, ?_, ?_, ?_⟩
    · intro q n hpre hget
      have h2 := deleteSubtreeAt_locks (splitSegs path) t q hwf
      rw [if_pos hpre, hget] at h2
      by_cases hq : q = []
      · rw [if_pos hq] at h2
        simpa using h2
      · rw [if_neg hq] at h2
        exact Option.noConfusion h2
    · intro q hpre
      have h2 := deleteSubtreeAt_locks (splitSegs path) t q hwf
      rw [if_neg hpre] at h2
      exact h2
    · intro hnone
      exact Option.noConfusion hnone
    · intro hne _
      have h2 := deleteSubtreeAt_locks (splitSegs path) t (splitSegs path) hwf
      rw [if_pos (List.prefix_refl (splitSegs path)), if_neg hne] at h2
      exact Option.map_eq_none'.1 h2

/-- C9 witness: cascading delete of `/a` on a concrete two-level trie. -/
theorem claim9_witness :
    ∃ t2, delete (Tree.node [] [("a",
        Tree.node [⟨"T1", "/a", none, none, none, true, false⟩]
          [("b", Tree.node [⟨"T2", "/a/b", none, none, none, true, false⟩] [])])]) "/a" =
        .ok t2 ∧
      (∀ q n, splitSegs "/a" <+: q → getNodeAt t2 q = some n → n.locks = []) ∧
      (∀ q, ¬ splitSegs "/a" <+: q →
        (getNodeAt t2 q).map Tree.locks =
          (getNodeAt (Tree.node [] [("a",
            Tree.node [⟨"T1", "/a", none, none, none, true, false⟩]
              [("b", Tree.node [⟨"T2", "/a/b", none, none, none, true, false⟩] [])])])
            q).map Tree.locks) ∧
      (getNodeAt (Tree.node [] [("a",
          Tree.node [⟨"T1", "/a", none, none, none, true, false⟩]
            [("b", Tree.node [⟨"T2", "/a/b", none, none, none, true, false⟩] [])])])
          (splitSegs "/a") = none →
        t2 = Tree.node [] [("a",
          Tree.node [⟨"T1", "/a", none, none, none, true, false⟩]
            [("b", Tree.node [⟨"T2", "/a/b", none, none, none, true, false⟩] [])])]) ∧
      (splitSegs "/a" ≠ [] →
        (getNodeAt (Tree.node [] [("a",
          Tree.node [⟨"T1", "/a", none, none, none, true, false⟩]
            [("b", Tree.node [⟨"T2", "/a/b", none, none, none, true, false⟩] [])])])
          (splitSegs "/a")).isSome = true →
        getNodeAt t2 (splitSegs "/a") = none) :=
  claim9_cascade_delete (Tree.node [] [("a",
    Tree.node [⟨"T1", "/a", none, none, none, true, false⟩]
      [("b", Tree.node [⟨"T2", "/a/b", none, none, none, true, false⟩] [])])]) "/a"
    (by decide)

/-- C10: a lock acquired at the root path `/` succeeds (on the empty store),
is stored at the root node and is reported by `enumerate`; yet `release` and
`refresh` at `/` return NotFound for every token on every state, because the
token-location walk of `lookup_lock` only inspects child nodes reached by
consuming a path segment and never the root node itself. -/
theorem claim10_root_lock :
    (∀ (t : Tree) (token : String), unlock t "/" token = .error ()) ∧
    (∀ (t : Tree) (token : String) (tmo : Option Nat) (now : Nat),
      refresh t "/" token tmo now = .error ()) ∧
    (∃ t2 L, lock emptyTree "/" none none false false "TR" 0 = .ok (t2, L) ∧
      getNodeAt t2 [] = some (Tree.node [L] []) ∧ L ∈ list_locks t2 "/" ∧
      lookup_lock t2 "/" L.token = none) := by
  refine ⟨fun t token => rfl, fun t token tmo now => rfl, ?_⟩
  exact ⟨Tree.node [⟨"TR", "/", none, none, none, false, false⟩] [],
    ⟨"TR", "/", none, none, none, false, false⟩, rfl, rfl, by decide, rfl⟩

end MemLs
